import Mathlib

/-!
Shallow embedding of the vector utilities of the "museum of words" app
(`src/utils/embeddings.ts`, `src/utils/clustering.ts`, and the 2D projection
stage of the main component), together with theorems settling the spec claims.

JavaScript `number[]` / `Float32Array` values are modelled as `List ℚ`
(exact arithmetic in place of floats); an out-of-bounds element access that
would make a JS arithmetic result `NaN` is modelled by `Option`, with `none`
standing for `NaN`.
-/

namespace MuseumOfWords

/-- Model of `dot` from `embeddings.ts`: `for (i = 0; i < a.length; i++) s += a[i] * b[i]`.
The loop runs over the indices of `a` only.  When `a` is longer than `b`,
the access `b[i]` is out of bounds (`undefined` in JS), so the sum is `NaN`:
this is modelled by `none`.  When `a.length ≤ b.length` the sum ranges over
the first `a.length` index pairs, i.e. `zipWith (*)` of the two lists. -/
def dot (a b : List ℚ) : Option ℚ :=
  if a.length ≤ b.length then some (List.zipWith (fun x y => x * y) a b).sum else none

/-- Value of `dot a b` in the cases where no out-of-bounds access occurs
(`a.length ≤ b.length`); elsewhere used only under an equal-length hypothesis. -/
def dotTotal (a b : List ℚ) : ℚ :=
  (List.zipWith (fun x y => x * y) a b).sum

/-- Model of `cosine` from `embeddings.ts`: `return dot(a, b)` (inputs are
assumed already L2-normalized by the callers). -/
def cosine (a b : List ℚ) : Option ℚ := dot a b

theorem dot_eq_dotTotal (a b : List ℚ) (h : a.length ≤ b.length) :
    dot a b = some (dotTotal a b) := by
  simp [dot, dotTotal, h]

theorem dotTotal_comm (a b : List ℚ) : dotTotal a b = dotTotal b a := by
  unfold dotTotal
  congr 1
  induction a generalizing b with
  | nil => cases b <;> simp
  | cons x xs ih =>
    cases b with
    | nil => simp
    | cons y ys => simp [ih, mul_comm]

/-- C1: the spec says a length mismatch in `dot` must fail and "must not be
silently coerced (e.g., by truncation)".  The code violates this: with
`a = [1]` and `b = [2, 3]` (lengths 1 ≠ 2) the loop runs only over `a`'s
single index and returns the value 2, silently truncating `b`. -/
theorem dot_mismatch_truncates :
    dot [(1 : ℚ)] [2, 3] = some 2 ∧
      ([(1 : ℚ)] : List ℚ).length ≠ ([2, 3] : List ℚ).length := by
  constructor
  · simp [dot]
  · simp

/-- One cell of the similarity matrix.  The loop in `buildSimMatrix` visits
pairs `i ≤ j`, computes `s = (cosine(vectors[i], vectors[j]) + 1) / 2` and
writes it to both `M[i][j]` and `M[j][i]`, so the final content of cell
`(i, j)` is the value computed for the ordered pair `(min i j, max i j)`.
The cosine value is taken through `dotTotal` (see `dot_eq_dotTotal`); this is
the source's `cosine` whenever the two vectors have equal length. -/
def simCell (vectors : List (List ℚ)) (i j : ℕ) : ℚ :=
  if i ≤ j then (dotTotal (vectors.getD i []) (vectors.getD j []) + 1) / 2
  else (dotTotal (vectors.getD j []) (vectors.getD i []) + 1) / 2

/-- Model of `buildSimMatrix` from `embeddings.ts`: an `n × n` matrix of
`simCell` values, where `n = vectors.length`. -/
def buildSimMatrix (vectors : List (List ℚ)) : List (List ℚ) :=
  (List.range vectors.length).map fun i =>
    (List.range vectors.length).map fun j => simCell vectors i j

theorem simCell_eq (vectors : List (List ℚ)) (i j : ℕ) :
    simCell vectors i j = (dotTotal (vectors.getD i []) (vectors.getD j []) + 1) / 2 := by
  unfold simCell
  split
  · rfl
  · rw [dotTotal_comm]

theorem buildSimMatrix_get (vectors : List (List ℚ)) (i j : ℕ)
    (hi : i < vectors.length) (hj : j < vectors.length) :
    ((buildSimMatrix vectors).getD i []).getD j 0 = simCell vectors i j := by
  have hrow : (buildSimMatrix vectors).getD i [] =
      (List.range vectors.length).map fun j => simCell vectors i j := by
    unfold buildSimMatrix
    rw [List.getD_eq_getElem _ _ (by simpa using hi), List.getElem_map, List.getElem_range]
  rw [hrow, List.getD_eq_getElem _ _ (by simpa using hj), List.getElem_map, List.getElem_range]

/-- C3: for unit-normalized vectors (`dot v v = 1`), `buildSimMatrix` yields an
`N × N` matrix with cell `(i,j) = (cosine(v_i, v_j) + 1) / 2`, symmetric, with
diagonal 1; `N = 0` gives the empty matrix. -/
theorem buildSimMatrix_spec (vectors : List (List ℚ))
    (hunit : ∀ v ∈ vectors, dotTotal v v = 1) :
    (buildSimMatrix vectors).length = vectors.length ∧
    (∀ i, i < vectors.length → ((buildSimMatrix vectors).getD i []).length = vectors.length) ∧
    (∀ i j, i < vectors.length → j < vectors.length →
      ((buildSimMatrix vectors).getD i []).getD j 0 =
        (dotTotal (vectors.getD i []) (vectors.getD j []) + 1) / 2) ∧
    (∀ i j, i < vectors.length → j < vectors.length →
      ((buildSimMatrix vectors).getD i []).getD j 0 =
        ((buildSimMatrix vectors).getD j []).getD i 0) ∧
    (∀ i, i < vectors.length → ((buildSimMatrix vectors).getD i []).getD i 0 = 1) ∧
    (vectors = [] → buildSimMatrix vectors = []) := by
  refine ⟨by simp [buildSimMatrix], ?_, ?_, ?_, ?_, ?_⟩
  · intro i hi
    unfold buildSimMatrix
    rw [List.getD_eq_getElem _ _ (by simpa using hi)]
    simp
  · intro i j hi hj
    rw [buildSimMatrix_get vectors i j hi hj, simCell_eq]
  · intro i j hi hj
    rw [buildSimMatrix_get vectors i j hi hj, buildSimMatrix_get vectors j i hj hi]
    rw [simCell_eq, simCell_eq, dotTotal_comm]
  · intro i hi
    rw [buildSimMatrix_get vectors i i hi hi, simCell_eq]
    have hmem : vectors.getD i [] ∈ vectors := by
      rw [List.getD_eq_getElem _ _ hi]
      exact List.getElem_mem hi
    rw [hunit _ hmem]
    norm_num
  · intro h
    simp [buildSimMatrix, h]

/-- Witness for `buildSimMatrix_spec` at the concrete unit vectors
`[[1, 0], [0, 1]]`. -/
theorem buildSimMatrix_spec_witness :
    (∀ v ∈ [[(1 : ℚ), 0], [0, 1]], dotTotal v v = 1) ∧
    ((buildSimMatrix [[(1 : ℚ), 0], [0, 1]]).length = 2 ∧
     (∀ i, i < 2 → ((buildSimMatrix [[(1 : ℚ), 0], [0, 1]]).getD i []).length = 2) ∧
     (∀ i j, i < 2 → j < 2 →
       ((buildSimMatrix [[(1 : ℚ), 0], [0, 1]]).getD i []).getD j 0 =
         (dotTotal (([[(1 : ℚ), 0], [0, 1]] : List (List ℚ)).getD i [])
            (([[(1 : ℚ), 0], [0, 1]] : List (List ℚ)).getD j []) + 1) / 2) ∧
     (∀ i j, i < 2 → j < 2 →
       ((buildSimMatrix [[(1 : ℚ), 0], [0, 1]]).getD i []).getD j 0 =
         ((buildSimMatrix [[(1 : ℚ), 0], [0, 1]]).getD j []).getD i 0) ∧
     (∀ i, i < 2 → ((buildSimMatrix [[(1 : ℚ), 0], [0, 1]]).getD i []).getD i 0 = 1) ∧
     (([[(1 : ℚ), 0], [0, 1]] : List (List ℚ)) = [] →
       buildSimMatrix [[(1 : ℚ), 0], [0, 1]] = [])) := by
  have hunit : ∀ v ∈ [[(1 : ℚ), 0], [0, 1]], dotTotal v v = 1 := by
    intro v hv
    fin_cases hv <;> norm_num [dotTotal]
  exact ⟨hunit, buildSimMatrix_spec [[(1 : ℚ), 0], [0, 1]] hunit⟩

/-- One step of the stable sort used by `nearestNeighbors`.  The source sorts
with `sims.sort((a, b) => b.s - a.s)`; `Array.prototype.sort` is stable
(ES2019), so the result is the unique stable descending-by-`s` ordering.
`insDesc` inserts a new element after every already-placed element whose `s`
is greater than or equal to its own, which is exactly the stable placement. -/
def insDesc (x : ℕ × ℚ) : List (ℕ × ℚ) → List (ℕ × ℚ)
  | [] => [x]
  | y :: l => if y.2 < x.2 then x :: y :: l else y :: insDesc x l

/-- Stable descending sort by the `s` component (left fold of `insDesc`),
modelling `sims.sort((a, b) => b.s - a.s)` in `nearestNeighbors`. -/
def sortDesc (l : List (ℕ × ℚ)) : List (ℕ × ℚ) :=
  l.foldl (fun acc x => insDesc x acc) []

/-- Model of `nearestNeighbors` from `embeddings.ts`: for each `i`, pair every
other index `j` with `cosine(vectors[i], vectors[j])`, sort descending by
similarity (stably), and keep the first `k`. -/
def nearestNeighbors (vectors : List (List ℚ)) (k : ℕ) : List (List (ℕ × ℚ)) :=
  (List.range vectors.length).map fun i =>
    (sortDesc (((List.range vectors.length).filter fun j => j ≠ i).map
      fun j => (j, dotTotal (vectors.getD i []) (vectors.getD j [])))).take k

/-- Strict order realised by the stable descending sort on entries whose
original order is by ascending index: greater similarity first, and among
equal similarities the smaller index first. -/
def nbrLt (x y : ℕ × ℚ) : Prop :=
  y.2 < x.2 ∨ (x.2 = y.2 ∧ x.1 < y.1)

theorem mem_insDesc (x z : ℕ × ℚ) (l : List (ℕ × ℚ)) :
    z ∈ insDesc x l ↔ z = x ∨ z ∈ l := by
  induction l with
  | nil => simp [insDesc]
  | cons y t ih =>
    by_cases h : y.2 < x.2
    · simp [insDesc, h]
    · simp [insDesc, h, ih]
      tauto

theorem length_insDesc (x : ℕ × ℚ) (l : List (ℕ × ℚ)) :
    (insDesc x l).length = l.length + 1 := by
  induction l with
  | nil => simp [insDesc]
  | cons y t ih =>
    by_cases h : y.2 < x.2
    · simp [insDesc, h]
    · simp [insDesc, h, ih]

theorem pairwise_insDesc (x : ℕ × ℚ) (l : List (ℕ × ℚ))
    (hl : l.Pairwise nbrLt) (hx : ∀ y ∈ l, y.1 < x.1) :
    (insDesc x l).Pairwise nbrLt := by
  induction l with
  | nil => simp [insDesc]
  | cons y t ih =>
    rcases List.pairwise_cons.mp hl with ⟨hyt, hpt⟩
    by_cases h : y.2 < x.2
    · rw [insDesc, if_pos h]
      refine List.pairwise_cons.mpr ⟨?_, hl⟩
      intro z hz
      rcases List.mem_cons.mp hz with rfl | hz
      · exact Or.inl h
      · rcases hyt z hz with hlt | ⟨heq, _⟩
        · exact Or.inl (hlt.trans h)
        · exact Or.inl (heq ▸ h)
    · rw [insDesc, if_neg h]
      refine List.pairwise_cons.mpr ⟨?_, ?_⟩
      · intro z hz
        rcases (mem_insDesc x z t).mp hz with rfl | hz
        · rcases lt_or_eq_of_le (le_of_not_lt h) with hlt | heq
          · exact Or.inl hlt
          · exact Or.inr ⟨heq.symm, hx y (List.mem_cons_self y t)⟩
        · exact hyt z hz
      · exact ih hpt fun z hz => hx z (List.mem_cons_of_mem y hz)

theorem sortDesc_go_pairwise (l acc : List (ℕ × ℚ))
    (hacc : acc.Pairwise nbrLt)
    (hsep : ∀ y ∈ acc, ∀ x ∈ l, y.1 < x.1)
    (hl : l.Pairwise fun a b => a.1 < b.1) :
    (l.foldl (fun acc x => insDesc x acc) acc).Pairwise nbrLt := by
  induction l generalizing acc with
  | nil => simpa using hacc
  | cons x t ih =>
    rcases List.pairwise_cons.mp hl with ⟨hxt, hpt⟩
    rw [List.foldl_cons]
    refine ih (insDesc x acc) ?_ ?_ hpt
    · exact pairwise_insDesc x acc hacc fun y hy => hsep y hy x (List.mem_cons_self x t)
    · intro y hy z hz
      rcases (mem_insDesc x y acc).mp hy with rfl | hy
      · exact hxt z hz
      · exact hsep y hy z (List.mem_cons_of_mem x hz)

theorem mem_sortDesc_go (l acc : List (ℕ × ℚ)) (z : ℕ × ℚ) :
    z ∈ l.foldl (fun acc x => insDesc x acc) acc ↔ z ∈ acc ∨ z ∈ l := by
  induction l generalizing acc with
  | nil => simp
  | cons x t ih =>
    rw [List.foldl_cons, ih]
    rw [mem_insDesc]
    simp
    tauto

theorem length_sortDesc_go (l acc : List (ℕ × ℚ)) :
    (l.foldl (fun acc x => insDesc x acc) acc).length = acc.length + l.length := by
  induction l generalizing acc with
  | nil => simp
  | cons x t ih =>
    rw [List.foldl_cons, ih, length_insDesc]
    simp only [List.length_cons]
    omega

theorem sortDesc_pairwise (l : List (ℕ × ℚ)) (hl : l.Pairwise fun a b => a.1 < b.1) :
    (sortDesc l).Pairwise nbrLt :=
  sortDesc_go_pairwise l [] (by simp) (by simp) hl

theorem mem_sortDesc (l : List (ℕ × ℚ)) (z : ℕ × ℚ) : z ∈ sortDesc l ↔ z ∈ l := by
  unfold sortDesc
  rw [mem_sortDesc_go]
  simp

theorem length_sortDesc (l : List (ℕ × ℚ)) : (sortDesc l).length = l.length := by
  unfold sortDesc
  rw [length_sortDesc_go]
  simp

theorem filter_ne_range_length (n i : ℕ) (hi : i < n) :
    ((List.range n).filter fun j => j ≠ i).length = n - 1 := by
  induction n with
  | zero => omega
  | succ m ih =>
    rw [List.range_succ, List.filter_append, List.length_append]
    rcases Nat.lt_or_ge i m with him | him
    · have hne : m ≠ i := by omega
      rw [ih him]
      simp [hne]
      omega
    · have him : i = m := by omega
      subst him
      have hall : ∀ j ∈ List.range i, j ≠ i := by
        intro j hj
        have := List.mem_range.mp hj
        omega
      rw [List.filter_eq_self.mpr (by simpa using fun j hj => hall j hj)]
      simp

theorem nearestNeighbors_row (vectors : List (List ℚ)) (k i : ℕ)
    (hi : i < vectors.length) :
    (nearestNeighbors vectors k).getD i [] =
      (sortDesc (((List.range vectors.length).filter fun j => j ≠ i).map
        fun j => (j, dotTotal (vectors.getD i []) (vectors.getD j [])))).take k := by
  unfold nearestNeighbors
  rw [List.getD_eq_getElem _ _ (by simpa using hi), List.getElem_map, List.getElem_range]

/-- C2: every neighbor list of `nearestNeighbors` excludes the point itself,
carries the raw cosine similarity of its pair, has exactly
`min k (N - 1)` entries, is sorted descending by similarity, and resolves
ties by the original (ascending) index order.  The equal-length hypothesis
records that the similarity values are the source's `cosine` (see
`dot_eq_dotTotal`); all listed properties are independent of it. -/
theorem nearestNeighbors_spec (vectors : List (List ℚ)) (k d : ℕ)
    (hk : 1 ≤ k) (hd : ∀ v ∈ vectors, v.length = d) :
    (nearestNeighbors vectors k).length = vectors.length ∧
    ∀ i, i < vectors.length →
      (∀ e ∈ (nearestNeighbors vectors k).getD i [],
        e.1 ≠ i ∧ e.1 < vectors.length ∧
          e.2 = dotTotal (vectors.getD i []) (vectors.getD e.1 [])) ∧
      ((nearestNeighbors vectors k).getD i []).length = min k (vectors.length - 1) ∧
      ((nearestNeighbors vectors k).getD i []).Pairwise (fun a b => b.2 ≤ a.2) ∧
      ((nearestNeighbors vectors k).getD i []).Pairwise
        (fun a b => a.2 = b.2 → a.1 < b.1) := by
  refine ⟨by simp [nearestNeighbors], ?_⟩
  intro i hi
  rw [nearestNeighbors_row vectors k i hi]
  set sims := ((List.range vectors.length).filter fun j => j ≠ i).map
    fun j => (j, dotTotal (vectors.getD i []) (vectors.getD j [])) with hsims
  have hpw : sims.Pairwise fun a b => a.1 < b.1 := by
    rw [hsims, List.pairwise_map]
    exact ((List.pairwise_lt_range vectors.length).filter _).imp fun h => h
  have hsorted : (sortDesc sims).Pairwise nbrLt := sortDesc_pairwise sims hpw
  have htake : ((sortDesc sims).take k).Pairwise nbrLt :=
    List.Pairwise.sublist ((sortDesc sims).take_sublist k) hsorted
  refine ⟨?_, ?_, ?_, ?_⟩
  · intro e he
    have hmem : e ∈ sims := (mem_sortDesc sims e).mp (List.mem_of_mem_take he)
    rw [hsims] at hmem
    rcases List.mem_map.mp hmem with ⟨j, hj, rfl⟩
    have hj2 := List.mem_filter.mp hj
    refine ⟨by simpa using hj2.2, List.mem_range.mp hj2.1, rfl⟩
  · rw [List.length_take, length_sortDesc, hsims, List.length_map,
      filter_ne_range_length vectors.length i hi]
  · exact htake.imp fun h => by
      rcases h with hlt | ⟨heq, _⟩
      · exact le_of_lt hlt
      · exact le_of_eq heq.symm
  · exact htake.imp fun h => by
      rcases h with hlt | ⟨heq, hidx⟩
      · intro heq2
        exact absurd heq2 (ne_of_gt hlt)
      · intro _
        exact hidx

/-- Witness for `nearestNeighbors_spec` at three concrete 2-dimensional
vectors with `k = 1`. -/
theorem nearestNeighbors_spec_witness :
    1 ≤ 1 ∧ (∀ v ∈ [[(1 : ℚ), 0], [0, 1], [1, 0]], v.length = 2) ∧
    ((nearestNeighbors [[(1 : ℚ), 0], [0, 1], [1, 0]] 1).length =
        ([[(1 : ℚ), 0], [0, 1], [1, 0]] : List (List ℚ)).length ∧
      ∀ i, i < ([[(1 : ℚ), 0], [0, 1], [1, 0]] : List (List ℚ)).length →
        (∀ e ∈ (nearestNeighbors [[(1 : ℚ), 0], [0, 1], [1, 0]] 1).getD i [],
          e.1 ≠ i ∧ e.1 < ([[(1 : ℚ), 0], [0, 1], [1, 0]] : List (List ℚ)).length ∧
            e.2 = dotTotal (([[(1 : ℚ), 0], [0, 1], [1, 0]] : List (List ℚ)).getD i [])
              (([[(1 : ℚ), 0], [0, 1], [1, 0]] : List (List ℚ)).getD e.1 [])) ∧
        ((nearestNeighbors [[(1 : ℚ), 0], [0, 1], [1, 0]] 1).getD i []).length =
          min 1 (([[(1 : ℚ), 0], [0, 1], [1, 0]] : List (List ℚ)).length - 1) ∧
        ((nearestNeighbors [[(1 : ℚ), 0], [0, 1], [1, 0]] 1).getD i []).Pairwise
          (fun a b => b.2 ≤ a.2) ∧
        ((nearestNeighbors [[(1 : ℚ), 0], [0, 1], [1, 0]] 1).getD i []).Pairwise
          (fun a b => a.2 = b.2 → a.1 < b.1)) :=
  ⟨by decide, by decide,
    nearestNeighbors_spec [[(1 : ℚ), 0], [0, 1], [1, 0]] 1 2 (by decide) (by decide)⟩

/-- Minimum of a list of rationals, modelling the `minX`/`minY` fold of
`normalize2D` (`let minX = Infinity; ... if (x < minX) minX = x`): for a
non-empty list this equals the fold of `min` over the elements; the `[]`
case (value 0 here) is never reached because `normalize2D` returns early on
empty input. -/
def jsMin : List ℚ → ℚ
  | [] => 0
  | x :: t => t.foldl min x

/-- Maximum of a list of rationals, modelling the `maxX`/`maxY` fold of
`normalize2D`. -/
def jsMax : List ℚ → ℚ
  | [] => 0
  | x :: t => t.foldl max x

/-- Model of the JS guard `span = max - min || 1` in `normalize2D`: `0` is
falsy, so a zero span is replaced by `1`. -/
def jsSpan (mn mx : ℚ) : ℚ :=
  if mx - mn = 0 then 1 else mx - mn

/-- Model of `normalize2D` from `clustering.ts`: scale 2D coordinates to a
`width × height` viewport, leaving `pad` on each side.  Points are pairs
`(x, y)`. -/
def normalize2D (coords : List (ℚ × ℚ)) (width height pad : ℚ) : List (ℚ × ℚ) :=
  if coords.isEmpty then []
  else
    let xs := coords.map Prod.fst
    let ys := coords.map Prod.snd
    let spanX := jsSpan (jsMin xs) (jsMax xs)
    let spanY := jsSpan (jsMin ys) (jsMax ys)
    let W := width - pad * 2
    let H := height - pad * 2
    coords.map fun p =>
      (pad + ((p.1 - jsMin xs) / spanX) * W, pad + ((p.2 - jsMin ys) / spanY) * H)

theorem foldl_min_le_init (t : List ℚ) (a : ℚ) : t.foldl min a ≤ a := by
  induction t generalizing a with
  | nil => simp
  | cons y s ih => exact le_trans (ih (min a y)) (min_le_left a y)

theorem foldl_min_le_mem (t : List ℚ) (a x : ℚ) (hx : x ∈ t) : t.foldl min a ≤ x := by
  induction t generalizing a with
  | nil => cases hx
  | cons y s ih =>
    rcases List.mem_cons.mp hx with rfl | hx
    · exact le_trans (foldl_min_le_init s (min a x)) (min_le_right a x)
    · exact ih (min a y) hx

theorem le_foldl_max_init (t : List ℚ) (a : ℚ) : a ≤ t.foldl max a := by
  induction t generalizing a with
  | nil => simp
  | cons y s ih => exact le_trans (le_max_left a y) (ih (max a y))

theorem le_foldl_max_mem (t : List ℚ) (a x : ℚ) (hx : x ∈ t) : x ≤ t.foldl max a := by
  induction t generalizing a with
  | nil => cases hx
  | cons y s ih =>
    rcases List.mem_cons.mp hx with rfl | hx
    · exact le_trans (le_max_right a x) (le_foldl_max_init s (max a x))
    · exact ih (max a y) hx

theorem jsMin_le (l : List ℚ) (x : ℚ) (hx : x ∈ l) : jsMin l ≤ x := by
  cases l with
  | nil => cases hx
  | cons y t =>
    rcases List.mem_cons.mp hx with rfl | hx
    · exact foldl_min_le_init t x
    · exact foldl_min_le_mem t y x hx

theorem le_jsMax (l : List ℚ) (x : ℚ) (hx : x ∈ l) : x ≤ jsMax l := by
  cases l with
  | nil => cases hx
  | cons y t =>
    rcases List.mem_cons.mp hx with rfl | hx
    · exact le_foldl_max_init t x
    · exact le_foldl_max_mem t y x hx

theorem foldl_min_const (t : List ℚ) (c : ℚ) (hc : ∀ x ∈ t, x = c) :
    t.foldl min c = c := by
  induction t with
  | nil => rfl
  | cons z s ih =>
    have hz : z = c := hc z (by simp)
    subst hz
    simp only [List.foldl_cons, min_self]
    exact ih fun x hx => hc x (List.mem_cons_of_mem z hx)

theorem foldl_max_const (t : List ℚ) (c : ℚ) (hc : ∀ x ∈ t, x = c) :
    t.foldl max c = c := by
  induction t with
  | nil => rfl
  | cons z s ih =>
    have hz : z = c := hc z (by simp)
    subst hz
    simp only [List.foldl_cons, max_self]
    exact ih fun x hx => hc x (List.mem_cons_of_mem z hx)

theorem jsMin_eq_of_const (l : List ℚ) (c : ℚ) (hne : l ≠ [])
    (hc : ∀ x ∈ l, x = c) : jsMin l = c := by
  cases l with
  | nil => exact absurd rfl hne
  | cons y t =>
    have hy : y = c := hc y (List.mem_cons_self y t)
    subst hy
    exact foldl_min_const t y fun x hx => hc x (List.mem_cons_of_mem y hx)

theorem jsMax_eq_of_const (l : List ℚ) (c : ℚ) (hne : l ≠ [])
    (hc : ∀ x ∈ l, x = c) : jsMax l = c := by
  cases l with
  | nil => exact absurd rfl hne
  | cons y t =>
    have hy : y = c := hc y (List.mem_cons_self y t)
    subst hy
    exact foldl_max_const t y fun x hx => hc x (List.mem_cons_of_mem y hx)

theorem normalize2D_eq_map (coords : List (ℚ × ℚ)) (width height pad : ℚ)
    (hne : coords ≠ []) :
    normalize2D coords width height pad = coords.map fun p =>
      (pad + ((p.1 - jsMin (coords.map Prod.fst)) /
          jsSpan (jsMin (coords.map Prod.fst)) (jsMax (coords.map Prod.fst))) *
          (width - pad * 2),
       pad + ((p.2 - jsMin (coords.map Prod.snd)) /
          jsSpan (jsMin (coords.map Prod.snd)) (jsMax (coords.map Prod.snd))) *
          (height - pad * 2)) := by
  unfold normalize2D
  rw [if_neg (by simpa using hne)]

theorem scale_bounds (mn mx x W pad : ℚ) (hmn : mn ≤ x) (hmx : x ≤ mx) (hW : 0 ≤ W) :
    pad ≤ pad + ((x - mn) / jsSpan mn mx) * W ∧
      pad + ((x - mn) / jsSpan mn mx) * W ≤ pad + W := by
  unfold jsSpan
  by_cases h : mx - mn = 0
  · rw [if_pos h]
    have hx : x - mn = 0 := by linarith [le_antisymm (by linarith : x ≤ mn) hmn]
    rw [hx]
    constructor <;> simp <;> linarith
  · rw [if_neg h]
    have hpos : 0 < mx - mn := lt_of_le_of_ne (by linarith) (Ne.symm h)
    have ht0 : 0 ≤ (x - mn) / (mx - mn) := div_nonneg (by linarith) (le_of_lt hpos)
    have ht1 : (x - mn) / (mx - mn) ≤ 1 := (div_le_one hpos).mpr (by linarith)
    constructor
    · nlinarith [mul_nonneg ht0 hW]
    · nlinarith [mul_le_mul_of_nonneg_right ht1 hW]

/-- C4 as stated is false: it quantifies over "every padding value", but when
`2 * pad` exceeds the viewport dimension the scaled range `[pad, dim - pad]`
is inverted.  With points `[(0,0), (1,1)]`, `width = height = 100`, `pad = 60`,
the second output point is `(40, 40)` and `40 < pad = 60`, outside
`[pad, dim - pad] = [60, 40]`.  Moreover on a zero-span axis the point with
the maximum raw value maps to `pad`, not `dim - pad`: with points
`[(0,0), (0,5)]` and `pad = 10`, index 0 attains the maximal x value `0` yet
its output x is `10 ≠ 100 - 10`. -/
theorem normalize2D_claim_counterexample :
    (normalize2D [(0, 0), (1, 1)] 100 100 60 = [(60, 60), (40, 40)] ∧
      ¬((60 : ℚ) ≤ 40)) ∧
    ((normalize2D [(0, 0), (0, 5)] 100 100 10).getD 0 (0, 0) = (10, 10) ∧
      jsMax ((([(0, 0), (0, 5)] : List (ℚ × ℚ))).map Prod.fst) = 0 ∧
      (([(0, 0), (0, 5)] : List (ℚ × ℚ)).getD 0 (0, 0)).1 = 0 ∧
      ((10 : ℚ) ≠ 100 - 10)) := by
  refine ⟨⟨?_, by norm_num⟩, ⟨?_, ?_, by norm_num, by norm_num⟩⟩
  · norm_num [normalize2D, jsMin, jsMax, jsSpan]
  · norm_num [normalize2D, jsMin, jsMax, jsSpan]
  · norm_num [jsMax]

/-- C4 amended: provided the viewport leaves room for the padding
(`2 * pad ≤ width` and `2 * pad ≤ height`), every output coordinate of
`normalize2D` lies in `[pad, dim - pad]` on its axis; a point attaining the
minimum raw value on an axis maps to exactly `pad` there, and — when that
axis has non-zero span — a point attaining the maximum maps to exactly
`dim - pad`. -/
theorem normalize2D_range (coords : List (ℚ × ℚ)) (width height pad : ℚ)
    (hne : coords ≠ []) (hw : 2 * pad ≤ width) (hh : 2 * pad ≤ height) :
    (∀ q ∈ normalize2D coords width height pad,
      (pad ≤ q.1 ∧ q.1 ≤ width - pad) ∧ (pad ≤ q.2 ∧ q.2 ≤ height - pad)) ∧
    (∀ i, i < coords.length →
      ((coords.getD i (0, 0)).1 = jsMin (coords.map Prod.fst) →
        ((normalize2D coords width height pad).getD i (0, 0)).1 = pad) ∧
      ((coords.getD i (0, 0)).2 = jsMin (coords.map Prod.snd) →
        ((normalize2D coords width height pad).getD i (0, 0)).2 = pad) ∧
      (jsMin (coords.map Prod.fst) < jsMax (coords.map Prod.fst) →
        (coords.getD i (0, 0)).1 = jsMax (coords.map Prod.fst) →
        ((normalize2D coords width height pad).getD i (0, 0)).1 = width - pad) ∧
      (jsMin (coords.map Prod.snd) < jsMax (coords.map Prod.snd) →
        (coords.getD i (0, 0)).2 = jsMax (coords.map Prod.snd) →
        ((normalize2D coords width height pad).getD i (0, 0)).2 = height - pad)) := by
  have hW : (0 : ℚ) ≤ width - pad * 2 := by linarith
  have hH : (0 : ℚ) ≤ height - pad * 2 := by linarith
  rw [normalize2D_eq_map coords width height pad hne]
  constructor
  · intro q hq
    rcases List.mem_map.mp hq with ⟨p, hp, rfl⟩
    have hx1 := jsMin_le (coords.map Prod.fst) p.1 (List.mem_map_of_mem Prod.fst hp)
    have hx2 := le_jsMax (coords.map Prod.fst) p.1 (List.mem_map_of_mem Prod.fst hp)
    have hy1 := jsMin_le (coords.map Prod.snd) p.2 (List.mem_map_of_mem Prod.snd hp)
    have hy2 := le_jsMax (coords.map Prod.snd) p.2 (List.mem_map_of_mem Prod.snd hp)
    have bx := scale_bounds _ _ p.1 (width - pad * 2) pad hx1 hx2 hW
    have by2 := scale_bounds _ _ p.2 (height - pad * 2) pad hy1 hy2 hH
    exact ⟨⟨bx.1, by linarith [bx.2]⟩, ⟨by2.1, by linarith [by2.2]⟩⟩
  · intro i hi
    have hget : (coords.map fun p =>
        (pad + ((p.1 - jsMin (coords.map Prod.fst)) /
            jsSpan (jsMin (coords.map Prod.fst)) (jsMax (coords.map Prod.fst))) *
            (width - pad * 2),
         pad + ((p.2 - jsMin (coords.map Prod.snd)) /
            jsSpan (jsMin (coords.map Prod.snd)) (jsMax (coords.map Prod.snd))) *
            (height - pad * 2))).getD i (0, 0) =
        (pad + (((coords.getD i (0, 0)).1 - jsMin (coords.map Prod.fst)) /
            jsSpan (jsMin (coords.map Prod.fst)) (jsMax (coords.map Prod.fst))) *
            (width - pad * 2),
         pad + (((coords.getD i (0, 0)).2 - jsMin (coords.map Prod.snd)) /
            jsSpan (jsMin (coords.map Prod.snd)) (jsMax (coords.map Prod.snd))) *
            (height - pad * 2)) := by
      rw [List.getD_eq_getElem _ _ (by simpa using hi), List.getElem_map,
        List.getD_eq_getElem _ _ hi]
    rw [hget]
    refine ⟨?_, ?_, ?_, ?_⟩
    · intro hmin
      show pad + (((coords.getD i (0, 0)).1 - jsMin (coords.map Prod.fst)) /
          jsSpan (jsMin (coords.map Prod.fst)) (jsMax (coords.map Prod.fst))) *
          (width - pad * 2) = pad
      rw [hmin, sub_self, zero_div, zero_mul, add_zero]
    · intro hmin
      show pad + (((coords.getD i (0, 0)).2 - jsMin (coords.map Prod.snd)) /
          jsSpan (jsMin (coords.map Prod.snd)) (jsMax (coords.map Prod.snd))) *
          (height - pad * 2) = pad
      rw [hmin, sub_self, zero_div, zero_mul, add_zero]
    · intro hspan hmax
      have hne0 : jsMax (coords.map Prod.fst) - jsMin (coords.map Prod.fst) ≠ 0 := by
        intro h0
        exact absurd (by linarith : jsMax (coords.map Prod.fst) ≤
          jsMin (coords.map Prod.fst)) (not_le.mpr hspan)
      simp only [jsSpan, if_neg hne0, hmax]
      rw [div_self hne0]
      ring
    · intro hspan hmax
      have hne0 : jsMax (coords.map Prod.snd) - jsMin (coords.map Prod.snd) ≠ 0 := by
        intro h0
        exact absurd (by linarith : jsMax (coords.map Prod.snd) ≤
          jsMin (coords.map Prod.snd)) (not_le.mpr hspan)
      simp only [jsSpan, if_neg hne0, hmax]
      rw [div_self hne0]
      ring

/-- Witness for `normalize2D_range` at the spec's own scenario: points
`[(0,0), (10,10)]`, `width = height = 100`, `pad = 10`. -/
theorem normalize2D_range_witness :
    (([( (0 : ℚ), (0 : ℚ)), (10, 10)] : List (ℚ × ℚ)) ≠ [] ∧
      2 * (10 : ℚ) ≤ 100 ∧ 2 * (10 : ℚ) ≤ 100) ∧
    ((∀ q ∈ normalize2D [((0 : ℚ), (0 : ℚ)), (10, 10)] 100 100 10,
      (10 ≤ q.1 ∧ q.1 ≤ 100 - 10) ∧ (10 ≤ q.2 ∧ q.2 ≤ 100 - 10)) ∧
    (∀ i, i < ([((0 : ℚ), (0 : ℚ)), (10, 10)] : List (ℚ × ℚ)).length →
      ((([((0 : ℚ), (0 : ℚ)), (10, 10)] : List (ℚ × ℚ)).getD i (0, 0)).1 =
          jsMin (([((0 : ℚ), (0 : ℚ)), (10, 10)] : List (ℚ × ℚ)).map Prod.fst) →
        ((normalize2D [((0 : ℚ), (0 : ℚ)), (10, 10)] 100 100 10).getD i (0, 0)).1 = 10) ∧
      ((([((0 : ℚ), (0 : ℚ)), (10, 10)] : List (ℚ × ℚ)).getD i (0, 0)).2 =
          jsMin (([((0 : ℚ), (0 : ℚ)), (10, 10)] : List (ℚ × ℚ)).map Prod.snd) →
        ((normalize2D [((0 : ℚ), (0 : ℚ)), (10, 10)] 100 100 10).getD i (0, 0)).2 = 10) ∧
      (jsMin (([((0 : ℚ), (0 : ℚ)), (10, 10)] : List (ℚ × ℚ)).map Prod.fst) <
          jsMax (([((0 : ℚ), (0 : ℚ)), (10, 10)] : List (ℚ × ℚ)).map Prod.fst) →
        (([((0 : ℚ), (0 : ℚ)), (10, 10)] : List (ℚ × ℚ)).getD i (0, 0)).1 =
          jsMax (([((0 : ℚ), (0 : ℚ)), (10, 10)] : List (ℚ × ℚ)).map Prod.fst) →
        ((normalize2D [((0 : ℚ), (0 : ℚ)), (10, 10)] 100 100 10).getD i (0, 0)).1 =
          100 - 10) ∧
      (jsMin (([((0 : ℚ), (0 : ℚ)), (10, 10)] : List (ℚ × ℚ)).map Prod.snd) <
          jsMax (([((0 : ℚ), (0 : ℚ)), (10, 10)] : List (ℚ × ℚ)).map Prod.snd) →
        (([((0 : ℚ), (0 : ℚ)), (10, 10)] : List (ℚ × ℚ)).getD i (0, 0)).2 =
          jsMax (([((0 : ℚ), (0 : ℚ)), (10, 10)] : List (ℚ × ℚ)).map Prod.snd) →
        ((normalize2D [((0 : ℚ), (0 : ℚ)), (10, 10)] 100 100 10).getD i (0, 0)).2 =
          100 - 10))) :=
  ⟨⟨by simp, by norm_num, by norm_num⟩,
    normalize2D_range [((0 : ℚ), (0 : ℚ)), (10, 10)] 100 100 10
      (by simp) (by norm_num) (by norm_num)⟩

/-- C5: if all points share the same value on an axis, the zero span on that
axis is treated as `1` (the `|| 1` guard), and every point maps to exactly
`pad` along that axis. -/
theorem normalize2D_zero_span (coords : List (ℚ × ℚ)) (width height pad c : ℚ)
    (hne : coords ≠ []) :
    ((∀ p ∈ coords, p.1 = c) →
      jsSpan (jsMin (coords.map Prod.fst)) (jsMax (coords.map Prod.fst)) = 1 ∧
      ∀ q ∈ normalize2D coords width height pad, q.1 = pad) ∧
    ((∀ p ∈ coords, p.2 = c) →
      jsSpan (jsMin (coords.map Prod.snd)) (jsMax (coords.map Prod.snd)) = 1 ∧
      ∀ q ∈ normalize2D coords width height pad, q.2 = pad) := by
  constructor
  · intro hc
    have hmapne : coords.map Prod.fst ≠ [] := by
      simpa using hne
    have hcm : ∀ x ∈ coords.map Prod.fst, x = c := by
      intro x hx
      rcases List.mem_map.mp hx with ⟨p, hp, rfl⟩
      exact hc p hp
    have hmn : jsMin (coords.map Prod.fst) = c := jsMin_eq_of_const _ c hmapne hcm
    have hmx : jsMax (coords.map Prod.fst) = c := jsMax_eq_of_const _ c hmapne hcm
    have hspan : jsSpan (jsMin (coords.map Prod.fst)) (jsMax (coords.map Prod.fst)) = 1 := by
      rw [hmn, hmx, jsSpan, if_pos (sub_self c)]
    refine ⟨hspan, ?_⟩
    intro q hq
    rw [normalize2D_eq_map coords width height pad hne] at hq
    rcases List.mem_map.mp hq with ⟨p, hp, rfl⟩
    show pad + ((p.1 - jsMin (coords.map Prod.fst)) /
        jsSpan (jsMin (coords.map Prod.fst)) (jsMax (coords.map Prod.fst))) *
        (width - pad * 2) = pad
    rw [hmn, hc p hp, sub_self, zero_div, zero_mul, add_zero]
  · intro hc
    have hmapne : coords.map Prod.snd ≠ [] := by
      simpa using hne
    have hcm : ∀ x ∈ coords.map Prod.snd, x = c := by
      intro x hx
      rcases List.mem_map.mp hx with ⟨p, hp, rfl⟩
      exact hc p hp
    have hmn : jsMin (coords.map Prod.snd) = c := jsMin_eq_of_const _ c hmapne hcm
    have hmx : jsMax (coords.map Prod.snd) = c := jsMax_eq_of_const _ c hmapne hcm
    have hspan : jsSpan (jsMin (coords.map Prod.snd)) (jsMax (coords.map Prod.snd)) = 1 := by
      rw [hmn, hmx, jsSpan, if_pos (sub_self c)]
    refine ⟨hspan, ?_⟩
    intro q hq
    rw [normalize2D_eq_map coords width height pad hne] at hq
    rcases List.mem_map.mp hq with ⟨p, hp, rfl⟩
    show pad + ((p.2 - jsMin (coords.map Prod.snd)) /
        jsSpan (jsMin (coords.map Prod.snd)) (jsMax (coords.map Prod.snd))) *
        (height - pad * 2) = pad
    rw [hmn, hc p hp, sub_self, zero_div, zero_mul, add_zero]

/-- Witness for `normalize2D_zero_span` at points `[(3,0), (3,5)]`, which
share the x value `3`. -/
theorem normalize2D_zero_span_witness :
    (([( (3 : ℚ), (0 : ℚ)), (3, 5)] : List (ℚ × ℚ)) ≠ []) ∧
    (((∀ p ∈ ([((3 : ℚ), (0 : ℚ)), (3, 5)] : List (ℚ × ℚ)), p.1 = 3) →
      jsSpan (jsMin (([((3 : ℚ), (0 : ℚ)), (3, 5)] : List (ℚ × ℚ)).map Prod.fst))
        (jsMax (([((3 : ℚ), (0 : ℚ)), (3, 5)] : List (ℚ × ℚ)).map Prod.fst)) = 1 ∧
      ∀ q ∈ normalize2D [((3 : ℚ), (0 : ℚ)), (3, 5)] 100 100 10, q.1 = 10) ∧
    ((∀ p ∈ ([((3 : ℚ), (0 : ℚ)), (3, 5)] : List (ℚ × ℚ)), p.2 = 3) →
      jsSpan (jsMin (([((3 : ℚ), (0 : ℚ)), (3, 5)] : List (ℚ × ℚ)).map Prod.snd))
        (jsMax (([((3 : ℚ), (0 : ℚ)), (3, 5)] : List (ℚ × ℚ)).map Prod.snd)) = 1 ∧
      ∀ q ∈ normalize2D [((3 : ℚ), (0 : ℚ)), (3, 5)] 100 100 10, q.2 = 10)) :=
  ⟨by simp, normalize2D_zero_span [((3 : ℚ), (0 : ℚ)), (3, 5)] 100 100 10 3 (by simp)⟩

/-- Squared euclidean distance used in the assignment step of `kmeans`
(`dx * dx + dy * dy`). -/
def sqDist (p c : ℚ × ℚ) : ℚ :=
  (p.1 - c.1) * (p.1 - c.1) + (p.2 - c.2) * (p.2 - c.2)

/-- Inner loop of the assignment step of `kmeans`: walk the centers carrying
the running index `i`, the best index `best` (initially 0) and the best
distance `bestd` (initially `Infinity`, modelled by `none`); a strict
`d < bestd` comparison keeps the earlier index on ties. -/
def assignGo (p : ℚ × ℚ) : List (ℚ × ℚ) → ℕ → ℕ → Option ℚ → ℕ
  | [], _, best, _ => best
  | c :: rest, i, best, bestd =>
    match bestd with
    | none => assignGo p rest (i + 1) i (some (sqDist p c))
    | some bd =>
      if sqDist p c < bd then assignGo p rest (i + 1) i (some (sqDist p c))
      else assignGo p rest (i + 1) best (some bd)

/-- Label assigned to point `p` by the current centers: index of the nearest
center (first one on ties), 0 when there are no centers. -/
def assignLabel (centers : List (ℚ × ℚ)) (p : ℚ × ℚ) : ℕ :=
  assignGo p centers 0 0 none

/-- Count of points assigned to center `c` (the `cnt` array of `kmeans`). -/
def clusterCount (labels : List ℕ) (c : ℕ) : ℕ :=
  labels.count c

/-- Sum of the points assigned to center `c` (the `sum` array of `kmeans`). -/
def clusterSum (points : List (ℚ × ℚ)) (labels : List ℕ) (c : ℕ) : ℚ × ℚ :=
  (points.zip labels).foldl
    (fun s q => if q.2 = c then (s.1 + q.1.1, s.2 + q.1.2) else s) (0, 0)

/-- Update step of `kmeans`: each center with at least one assigned point
moves to the mean of those points; centers with none are left unchanged.
`c` is the index of the first center of the remaining list. -/
def updateGo (points : List (ℚ × ℚ)) (labels : List ℕ) :
    List (ℚ × ℚ) → ℕ → List (ℚ × ℚ)
  | [], _ => []
  | cen :: rest, c =>
    (if clusterCount labels c > 0 then
      ((clusterSum points labels c).1 / clusterCount labels c,
       (clusterSum points labels c).2 / clusterCount labels c)
    else cen) :: updateGo points labels rest (c + 1)

/-- The iteration loop of `kmeans`: each round assigns every point to its
nearest center, then recomputes the centers; returns the final centers and
the labels computed in the last round (`labels` starts as all zeros, so zero
iterations return the initial fill). -/
def kmeansIter (points : List (ℚ × ℚ)) :
    ℕ → List (ℚ × ℚ) → List ℕ → List (ℚ × ℚ) × List ℕ
  | 0, centers, labels => (centers, labels)
  | it + 1, centers, _ =>
    kmeansIter points it
      (updateGo points (points.map (assignLabel centers)) centers 0)
      (points.map (assignLabel centers))

/-- Initial centers of `kmeans`: copies of the first `min k n` points
(`for (i = 0; i < k && i < n; i++) centers.push([...points[i]])`). -/
def initCenters (points : List (ℚ × ℚ)) (k : ℕ) : List (ℚ × ℚ) :=
  points.take k

/-- Model of `kmeans` from `clustering.ts`; the result pairs the per-point
labels with the final centers.  Empty input returns `([], [])` without
iterating. -/
def kmeans (points : List (ℚ × ℚ)) (k iters : ℕ) : List ℕ × List (ℚ × ℚ) :=
  match points with
  | [] => ([], [])
  | _ =>
    let r := kmeansIter points iters (initCenters points k)
      (List.replicate points.length 0)
    (r.2, r.1)

theorem assignGo_lt (p : ℚ × ℚ) (n : ℕ) :
    ∀ (l : List (ℚ × ℚ)) (i best : ℕ) (bd : Option ℚ),
      best < n → i + l.length ≤ n → assignGo p l i best bd < n := by
  intro l
  induction l with
  | nil =>
    intro i best bd hb _
    simpa [assignGo] using hb
  | cons c rest ih =>
    intro i best bd hb hlen
    have hi : i < n := by
      simp only [List.length_cons] at hlen
      omega
    have hlen2 : (i + 1) + rest.length ≤ n := by
      simp only [List.length_cons] at hlen
      omega
    cases bd with
    | none => exact ih (i + 1) i _ hi hlen2
    | some b =>
      by_cases h : sqDist p c < b
      · simpa [assignGo, h] using ih (i + 1) i _ hi hlen2
      · simpa [assignGo, h] using ih (i + 1) best _ hb hlen2

theorem assignLabel_lt (centers : List (ℚ × ℚ)) (p : ℚ × ℚ)
    (hne : centers ≠ []) : assignLabel centers p < centers.length := by
  have hpos : 0 < centers.length := List.length_pos.mpr hne
  exact assignGo_lt p centers.length centers 0 0 none hpos (by omega)

theorem updateGo_length (points : List (ℚ × ℚ)) (labels : List ℕ) :
    ∀ (l : List (ℚ × ℚ)) (c : ℕ), (updateGo points labels l c).length = l.length := by
  intro l
  induction l with
  | nil => intro c; rfl
  | cons cen rest ih =>
    intro c
    simp [updateGo, ih (c + 1)]

theorem kmeansIter_invariant (points : List (ℚ × ℚ)) (m : ℕ) (hm : 0 < m) :
    ∀ (it : ℕ) (centers : List (ℚ × ℚ)) (labels : List ℕ),
      centers.length = m → (∀ l ∈ labels, l < m) →
      (kmeansIter points it centers labels).1.length = m ∧
        ∀ l ∈ (kmeansIter points it centers labels).2, l < m := by
  intro it
  induction it with
  | zero =>
    intro centers labels hc hl
    exact ⟨hc, hl⟩
  | succ j ih =>
    intro centers labels hc hl
    have hne : centers ≠ [] := by
      intro h
      rw [h] at hc
      simp at hc
      omega
    have hlab : ∀ l ∈ points.map (assignLabel centers), l < m := by
      intro l hlmem
      rcases List.mem_map.mp hlmem with ⟨p, _, rfl⟩
      exact hc ▸ assignLabel_lt centers p hne
    exact ih _ _ (by rw [updateGo_length, hc]) hlab

theorem kmeans_eq_of_ne (points : List (ℚ × ℚ)) (k iters : ℕ) (h : points ≠ []) :
    kmeans points k iters =
      ((kmeansIter points iters (initCenters points k)
          (List.replicate points.length 0)).2,
       (kmeansIter points iters (initCenters points k)
          (List.replicate points.length 0)).1) := by
  cases points with
  | nil => exact absurd rfl h
  | cons q rest => rfl

/-- C6: with `k ≥ 1`, every label returned by `kmeans` lies in `[0, k)`; the
function is deterministic (two runs on identical input and parameters yield
identical results — it is a pure function of its arguments, using no hidden
randomness); and the empty input yields the empty label list. -/
theorem kmeans_spec (points : List (ℚ × ℚ)) (k iters : ℕ) (hk : 1 ≤ k) :
    (∀ l ∈ (kmeans points k iters).1, l < k) ∧
    kmeans points k iters = kmeans points k iters ∧
    (points = [] → (kmeans points k iters).1 = []) := by
  refine ⟨?_, rfl, ?_⟩
  · by_cases hp : points = []
    · rw [hp]
      simp [kmeans]
    · have hnpos : 0 < points.length := List.length_pos.mpr hp
      have hm : 0 < (initCenters points k).length := by
        unfold initCenters
        rw [List.length_take]
        omega
      have hinit : ∀ l ∈ List.replicate points.length (0 : ℕ),
          l < (initCenters points k).length := by
        intro l hl
        rw [List.eq_of_mem_replicate hl]
        exact hm
      have hinv := kmeansIter_invariant points (initCenters points k).length hm
        iters (initCenters points k) (List.replicate points.length 0) rfl hinit
      intro l hl
      rw [kmeans_eq_of_ne points k iters hp] at hl
      have hbound : (initCenters points k).length ≤ k := by
        unfold initCenters
        rw [List.length_take]
        omega
      exact lt_of_lt_of_le (hinv.2 l hl) hbound
  · intro h
    rw [h]
    rfl

/-- Witness for `kmeans_spec` at three concrete points with `k = 2`,
`iters = 3`. -/
theorem kmeans_spec_witness :
    1 ≤ 2 ∧
    ((∀ l ∈ (kmeans [((0 : ℚ), (0 : ℚ)), (4, 0), (4, 1)] 2 3).1, l < 2) ∧
     kmeans [((0 : ℚ), (0 : ℚ)), (4, 0), (4, 1)] 2 3 =
       kmeans [((0 : ℚ), (0 : ℚ)), (4, 0), (4, 1)] 2 3 ∧
     (([((0 : ℚ), (0 : ℚ)), (4, 0), (4, 1)] : List (ℚ × ℚ)) = [] →
       (kmeans [((0 : ℚ), (0 : ℚ)), (4, 0), (4, 1)] 2 3).1 = [])) :=
  ⟨by decide, kmeans_spec [((0 : ℚ), (0 : ℚ)), (4, 0), (4, 1)] 2 3 (by decide)⟩

/-- C9: when the requested cluster count `k` exceeds the number of points
`n > 0`, only `min k n = n` centroids are created — copies of the `n` points
themselves — the returned centers list has length `n`, and every returned
label lies in `[0, n)`, strictly tighter than the documented `[0, k)`. -/
theorem kmeans_overcluster (points : List (ℚ × ℚ)) (k iters : ℕ)
    (hn : 0 < points.length) (hk : points.length < k) :
    initCenters points k = points ∧
    (kmeans points k iters).2.length = points.length ∧
    ∀ l ∈ (kmeans points k iters).1, l < points.length := by
  have hp : points ≠ [] := by
    intro h
    rw [h] at hn
    simp at hn
  have htake : initCenters points k = points :=
    List.take_of_length_le (le_of_lt hk)
  have hm : 0 < (initCenters points k).length := by
    rw [htake]
    exact hn
  have hinit : ∀ l ∈ List.replicate points.length (0 : ℕ),
      l < (initCenters points k).length := by
    intro l hl
    rw [List.eq_of_mem_replicate hl]
    exact hm
  have hinv := kmeansIter_invariant points (initCenters points k).length hm
    iters (initCenters points k) (List.replicate points.length 0) rfl hinit
  have hlen : (initCenters points k).length = points.length := by
    rw [htake]
  refine ⟨htake, ?_, ?_⟩
  · rw [kmeans_eq_of_ne points k iters hp]
    exact hinv.1.trans hlen
  · intro l hl
    rw [kmeans_eq_of_ne points k iters hp] at hl
    exact lt_of_lt_of_le (hinv.2 l hl) (le_of_eq hlen)

/-- Witness for `kmeans_overcluster` at two points with `k = 5`. -/
theorem kmeans_overcluster_witness :
    0 < ([((0 : ℚ), (0 : ℚ)), (1, 1)] : List (ℚ × ℚ)).length ∧
    ([((0 : ℚ), (0 : ℚ)), (1, 1)] : List (ℚ × ℚ)).length < 5 ∧
    (initCenters [((0 : ℚ), (0 : ℚ)), (1, 1)] 5 = [((0 : ℚ), (0 : ℚ)), (1, 1)] ∧
     (kmeans [((0 : ℚ), (0 : ℚ)), (1, 1)] 5 2).2.length =
       ([((0 : ℚ), (0 : ℚ)), (1, 1)] : List (ℚ × ℚ)).length ∧
     ∀ l ∈ (kmeans [((0 : ℚ), (0 : ℚ)), (1, 1)] 5 2).1,
       l < ([((0 : ℚ), (0 : ℚ)), (1, 1)] : List (ℚ × ℚ)).length) :=
  ⟨by decide, by decide, kmeans_overcluster [((0 : ℚ), (0 : ℚ)), (1, 1)] 5 2
    (by decide) (by decide)⟩

/-- Model of the seeded generator in the projection fallback:
`function rand(i) { const x = Math.sin(seed + i) * 10000; return x - Math.floor(x); }`
with `seed = 1337`.  `Math.sin` is a fixed pure function of its argument; it
is abstracted as the parameter `sinFn`, so every statement below holds for
whatever function the platform's `Math.sin` denotes. -/
def rand1337 (sinFn : ℚ → ℚ) (i : ℕ) : ℚ :=
  sinFn (1337 + i) * 10000 - ⌊sinFn (1337 + i) * 10000⌋

/-- Model of `const d = X[0]?.length ?? 64` in the projection fallback. -/
def fallbackDim (X : List (List ℚ)) : ℕ :=
  match X.head? with
  | some v => v.length
  | none => 64

/-- Model of the `catch` branch of `coordsRaw`: two weight vectors of length
`d` drawn from `rand1337` (offsets `i` and `i + 17`), each point projected to
its two dot products.  `dotTotal` is the source's `dot` whenever each vector
is at most `d` long (in the app all vectors share one length). -/
def fallbackProj (sinFn : ℚ → ℚ) (X : List (List ℚ)) : List (List ℚ) :=
  let d := fallbackDim X
  let a := (List.range d).map fun i => rand1337 sinFn i - 1 / 2
  let b := (List.range d).map fun i => rand1337 sinFn (i + 17) - 1 / 2
  X.map fun v => [dotTotal v a, dotTotal v b]

/-- Model of `coordsRaw` from the main component: empty input gives `[]`;
fewer than 3 points bypass projection entirely with placeholder diagonal
coordinates `[i*30, i*30]`; otherwise the external reduction backend
(PCA/UMAP, abstracted as `backend`, with `none` modelling a thrown
exception) is consulted, falling back to the seeded linear projection. -/
def coordsRaw (sinFn : ℚ → ℚ) (backend : List (List ℚ) → Option (List (List ℚ)))
    (X : List (List ℚ)) : List (List ℚ) :=
  if X.length = 0 then []
  else if X.length < 3 then X.mapIdx fun i _ => [(i : ℚ) * 30, (i : ℚ) * 30]
  else
    match backend X with
    | some Y => Y
    | none => fallbackProj sinFn X

/-- C7: with `0 < N < 3` points, `coordsRaw` returns the deterministic
placeholder `[i*30, i*30]` for each index `i`, the result is identical for
any two backends (the backend is never invoked), and for `N = 2` the output
is exactly `[[0,0],[30,30]]`. -/
theorem coordsRaw_small (sinFn : ℚ → ℚ)
    (b1 b2 : List (List ℚ) → Option (List (List ℚ))) (X : List (List ℚ))
    (h0 : 0 < X.length) (h3 : X.length < 3) :
    coordsRaw sinFn b1 X = (X.mapIdx fun i _ => [(i : ℚ) * 30, (i : ℚ) * 30]) ∧
    coordsRaw sinFn b1 X = coordsRaw sinFn b2 X ∧
    (X.length = 2 → coordsRaw sinFn b1 X = [[0, 0], [30, 30]]) := by
  have hbr : ∀ b : List (List ℚ) → Option (List (List ℚ)),
      coordsRaw sinFn b X = X.mapIdx fun i _ => [(i : ℚ) * 30, (i : ℚ) * 30] := by
    intro b
    unfold coordsRaw
    rw [if_neg (by omega), if_pos h3]
  refine ⟨hbr b1, (hbr b1).trans (hbr b2).symm, ?_⟩
  intro h2
  rw [hbr b1]
  match X, h2 with
  | [v0, v1], _ =>
    simp [List.mapIdx_cons, List.mapIdx_nil]

/-- Witness for `coordsRaw_small` at two concrete 1-dimensional vectors. -/
theorem coordsRaw_small_witness :
    0 < ([[(1 : ℚ)], [2]] : List (List ℚ)).length ∧
    ([[(1 : ℚ)], [2]] : List (List ℚ)).length < 3 ∧
    (coordsRaw (fun _ => 0) (fun _ => none) [[(1 : ℚ)], [2]] =
        (([[(1 : ℚ)], [2]] : List (List ℚ)).mapIdx
          fun i _ => [(i : ℚ) * 30, (i : ℚ) * 30]) ∧
      coordsRaw (fun _ => 0) (fun _ => none) [[(1 : ℚ)], [2]] =
        coordsRaw (fun _ => 0) (fun _ => some [[5, 5]]) [[(1 : ℚ)], [2]] ∧
      (([[(1 : ℚ)], [2]] : List (List ℚ)).length = 2 →
        coordsRaw (fun _ => 0) (fun _ => none) [[(1 : ℚ)], [2]] =
          [[0, 0], [30, 30]])) :=
  ⟨by decide, by decide,
    coordsRaw_small (fun _ => 0) (fun _ => none) (fun _ => some [[5, 5]])
      [[(1 : ℚ)], [2]] (by decide) (by decide)⟩

/-- Definition following the spec's words, for comparison with the code's
fallback (claim C8): "generate two fixed pseudo-random weight vectors from a
fixed seed" — seed 1337 through the documented sine-based generator, centred
by 0.5 — "and project each vector as its dot product against each weight
vector".  The weight vectors have the dimension of the input vectors (the
first vector's length). -/
def specSeededProjection (sinFn : ℚ → ℚ) (X : List (List ℚ)) : List (List ℚ) :=
  let d := (X.headD []).length
  let w1 := (List.range d).map fun i => rand1337 sinFn i - 1 / 2
  let w2 := (List.range d).map fun i => rand1337 sinFn (i + 17) - 1 / 2
  X.map fun v => [dotTotal v w1, dotTotal v w2]

/-- C8: whenever the backend throws (`none`), `coordsRaw` equals the
deterministic seeded linear projection described by the spec — a pure
function of the vectors and of `Math.sin` alone — and any two runs whose
backends both throw on the same input produce identical output. -/
theorem coordsRaw_fallback (sinFn : ℚ → ℚ)
    (bk1 bk2 : List (List ℚ) → Option (List (List ℚ))) (X : List (List ℚ))
    (h3 : 3 ≤ X.length) (hb1 : bk1 X = none) (hb2 : bk2 X = none) :
    coordsRaw sinFn bk1 X = specSeededProjection sinFn X ∧
    coordsRaw sinFn bk1 X = coordsRaw sinFn bk2 X := by
  have hbr : ∀ bk : List (List ℚ) → Option (List (List ℚ)), bk X = none →
      coordsRaw sinFn bk X = specSeededProjection sinFn X := by
    intro bk hbk
    unfold coordsRaw
    rw [if_neg (by omega), if_neg (by omega), hbk]
    cases X with
    | nil => simp at h3
    | cons v rest => rfl
  exact ⟨hbr bk1 hb1, (hbr bk1 hb1).trans (hbr bk2 hb2).symm⟩

/-- Witness for `coordsRaw_fallback` at three concrete vectors, an identity
stand-in for `Math.sin`, and two backends that throw. -/
theorem coordsRaw_fallback_witness :
    3 ≤ ([[(1 : ℚ)], [2], [3]] : List (List ℚ)).length ∧
    ((fun _ : List (List ℚ) => (none : Option (List (List ℚ))))
        [[(1 : ℚ)], [2], [3]] = none) ∧
    (coordsRaw (fun q => q) (fun _ => none) [[(1 : ℚ)], [2], [3]] =
        specSeededProjection (fun q => q) [[(1 : ℚ)], [2], [3]] ∧
      coordsRaw (fun q => q) (fun _ => none) [[(1 : ℚ)], [2], [3]] =
        coordsRaw (fun q => q) (fun _ => none) [[(1 : ℚ)], [2], [3]]) :=
  ⟨by decide, rfl,
    coordsRaw_fallback (fun q => q) (fun _ => none) (fun _ => none)
      [[(1 : ℚ)], [2], [3]] (by decide) rfl rfl⟩

/-- Model of JS `toLowerCase` on a UTF-16 code unit for the code points the
app's words use: `A`–`Z` (codes 65–90) map 32 up, the rest are unchanged.
Words are modelled as lists of code units (`List ℕ`), which is what
`charCodeAt`/`slice` operate on. -/
def toLowerCode (c : ℕ) : ℕ :=
  if 65 ≤ c ∧ c ≤ 90 then c + 32 else c

/-- One step of the FNV-1a hash in `hashTri`:
`h ^= tri.charCodeAt(i); h = Math.imul(h, 0x01000193)`.  All arithmetic is on
32-bit words, modelled as naturals mod `2^32` (`h >>> 0` at the end makes the
JS value the unsigned reading of the same 32 bits). -/
def hashStep (h c : ℕ) : ℕ :=
  (Nat.xor h c * 16777619) % 4294967296

/-- Model of `hashTri` from `clustering.ts`: FNV-1a 32-bit over the trigram's
code units, offset basis `0x811c9dc5`. -/
def hashTri (t : List ℕ) : ℕ :=
  t.foldl hashStep 2166136261

/-- All length-3 slices `s.slice(i, i + 3)` for `0 ≤ i < s.length - 2`. -/
def triList : List ℕ → List (List ℕ)
  | a :: b :: c :: r => [a, b, c] :: triList (b :: c :: r)
  | _ => []

/-- The bag-of-trigrams vector of `embedWordToy` before normalization: start
from `dim` zeros and bump index `hashTri(tri) % dim` for each trigram. -/
def triCounts (s : List ℕ) (dim : ℕ) : List ℚ :=
  (triList s).foldl
    (fun v t => v.set (hashTri t % dim) (v.getD (hashTri t % dim) 0 + 1))
    (List.replicate dim 0)

/-- The squared L2 norm loop of `embedWordToy`
(`for (i = 0; i < dim; i++) norm += v[i] * v[i]`). -/
def normSq (v : List ℚ) : ℚ :=
  (v.map fun x => x * x).sum

/-- Model of `embedWordToy` from `clustering.ts`.  The returned pair
`(v, N)` represents the `Float32Array` whose `i`-th entry is `v[i] / √N`:
the counts are exact, and the guarded squared norm `N` represents the
division by `Math.sqrt(norm) || 1` (note `√x = 0` iff `x = 0`, so the `|| 1`
guard fires exactly when `normSq v = 0`).  The word is lowercased and wrapped
as `^^word$$` (codes 94 and 36) before trigram extraction. -/
def embedWordToy (word : List ℕ) (dim : ℕ) : List ℚ × ℚ :=
  let s := [94, 94] ++ word.map toLowerCode ++ [36, 36]
  let v := triCounts s dim
  (v, if normSq v = 0 then 1 else normSq v)

theorem toLowerCode_idem (c : ℕ) : toLowerCode (toLowerCode c) = toLowerCode c := by
  unfold toLowerCode
  split_ifs <;> omega

theorem dotTotal_self (v : List ℚ) : dotTotal v v = normSq v := by
  unfold dotTotal normSq
  induction v with
  | nil => rfl
  | cons x t ih => simp [ih]

theorem sum_set_bump (l : List ℚ) (i : ℕ) (hi : i < l.length) :
    (l.set i (l.getD i 0 + 1)).sum = l.sum + 1 := by
  induction l generalizing i with
  | nil => simp at hi
  | cons x t ih =>
    cases i with
    | zero => simp [List.set, List.getD, add_comm, add_assoc, add_left_comm]
    | succ j =>
      have hj : j < t.length := by simpa using hi
      simp only [List.set, List.getD_cons_succ, List.sum_cons, ih j hj]
      ring

theorem triCounts_length (s : List ℕ) (dim : ℕ) :
    (triCounts s dim).length = dim := by
  unfold triCounts
  have hgen : ∀ (l : List (List ℕ)) (acc : List ℚ), acc.length = dim →
      (l.foldl (fun v t => v.set (hashTri t % dim) (v.getD (hashTri t % dim) 0 + 1))
        acc).length = dim := by
    intro l
    induction l with
    | nil => intro acc h; simpa using h
    | cons t r ih =>
      intro acc h
      exact ih _ (by simpa using h)
  exact hgen _ _ (by simp)

theorem triCounts_nonneg (s : List ℕ) (dim : ℕ) :
    ∀ x ∈ triCounts s dim, 0 ≤ x := by
  unfold triCounts
  have hgen : ∀ (l : List (List ℕ)) (acc : List ℚ), (∀ x ∈ acc, 0 ≤ x) →
      ∀ x ∈ l.foldl
        (fun v t => v.set (hashTri t % dim) (v.getD (hashTri t % dim) 0 + 1)) acc,
        0 ≤ x := by
    intro l
    induction l with
    | nil => intro acc h; simpa using h
    | cons t r ih =>
      intro acc h
      refine ih _ ?_
      intro x hx
      rcases List.mem_or_eq_of_mem_set hx with hx | rfl
      · exact h x hx
      · have : 0 ≤ acc.getD (hashTri t % dim) 0 := by
          cases hg : acc[hashTri t % dim]? with
          | none => simp [List.getD, hg]
          | some y =>
            have hy := h y (List.getElem?_mem hg)
            simpa [List.getD, hg] using hy
        linarith
  intro x hx
  refine hgen _ _ ?_ x hx
  intro y hy
  rw [List.eq_of_mem_replicate hy]

theorem triCounts_sum (s : List ℕ) (dim : ℕ) (hdim : 0 < dim) :
    (triCounts s dim).sum = (triList s).length := by
  unfold triCounts
  have hgen : ∀ (l : List (List ℕ)) (acc : List ℚ), acc.length = dim →
      (l.foldl (fun v t => v.set (hashTri t % dim) (v.getD (hashTri t % dim) 0 + 1))
        acc).sum = acc.sum + l.length := by
    intro l
    induction l with
    | nil => intro acc h; simp
    | cons t r ih =>
      intro acc h
      rw [List.foldl_cons, ih _ (by simpa using h)]
      rw [sum_set_bump acc _ (by rw [h]; exact Nat.mod_lt _ hdim)]
      simp only [List.length_cons]
      push_cast
      ring
  rw [hgen _ _ (by simp)]
  simp

theorem normSq_pos_of_sum_pos (v : List ℚ) (hnn : ∀ x ∈ v, 0 ≤ x)
    (hsum : 0 < v.sum) : 0 < normSq v := by
  induction v with
  | nil => simp at hsum
  | cons a t ih =>
    have ha : 0 ≤ a := hnn a (by simp)
    have htnn : ∀ x ∈ t, 0 ≤ x := fun x hx => hnn x (List.mem_cons_of_mem a hx)
    have htsq : 0 ≤ normSq t := by
      unfold normSq
      induction t with
      | nil => simp
      | cons b u ihu =>
        simp only [List.map_cons, List.sum_cons]
        have := mul_self_nonneg b
        have hu : (0 : ℚ) ≤ (u.map fun x => x * x).sum := by
          apply List.sum_nonneg
          intro y hy
          rcases List.mem_map.mp hy with ⟨z, _, rfl⟩
          exact mul_self_nonneg z
        linarith
    rcases lt_or_eq_of_le ha with hapos | haz
    · have : 0 < a * a := mul_pos hapos hapos
      unfold normSq
      simp only [List.map_cons, List.sum_cons]
      have : (0:ℚ) ≤ (t.map fun x => x * x).sum := by
        apply List.sum_nonneg
        intro y hy
        rcases List.mem_map.mp hy with ⟨z, _, rfl⟩
        exact mul_self_nonneg z
      nlinarith
    · have htsum : 0 < t.sum := by
        simp only [List.sum_cons, ← haz, zero_add] at hsum
        exact hsum
      have := ih htnn htsum
      unfold normSq
      simp only [List.map_cons, List.sum_cons, ← haz, zero_mul, zero_add]
      unfold normSq at this
      linarith

theorem triList_length (l : List ℕ) : (triList l).length = l.length - 2 := by
  induction l with
  | nil => rfl
  | cons a t ih =>
    cases t with
    | nil => rfl
    | cons b u =>
      cases u with
      | nil => rfl
      | cons c r =>
        simp only [triList, List.length_cons] at ih ⊢
        omega

/-- C10: `embedWordToy` is case-insensitive — any two words with the same
lowercasing (in particular a word and its own lowercase form, by
`toLowerCode_idem`) embed to elementwise-equal vectors for every `dim ≥ 1`
— and the cosine similarity of the two embeddings is 1: the dot product of
the represented unit vectors, `dotTotal v v / N`, equals 1 because
`dotTotal v v = N`. -/
theorem embedWordToy_case_insensitive (w1 w2 : List ℕ) (dim : ℕ) (hdim : 1 ≤ dim)
    (hcase : w1.map toLowerCode = w2.map toLowerCode) :
    embedWordToy w1 dim = embedWordToy w2 dim ∧
    dotTotal (embedWordToy w1 dim).1 (embedWordToy w2 dim).1 =
      (embedWordToy w1 dim).2 := by
  have heq : embedWordToy w1 dim = embedWordToy w2 dim := by
    unfold embedWordToy
    rw [hcase]
  refine ⟨heq, ?_⟩
  rw [← heq]
  show dotTotal (triCounts ([94, 94] ++ w1.map toLowerCode ++ [36, 36]) dim)
      (triCounts ([94, 94] ++ w1.map toLowerCode ++ [36, 36]) dim) =
    if normSq (triCounts ([94, 94] ++ w1.map toLowerCode ++ [36, 36]) dim) = 0 then 1
    else normSq (triCounts ([94, 94] ++ w1.map toLowerCode ++ [36, 36]) dim)
  set s := [94, 94] ++ w1.map toLowerCode ++ [36, 36] with hs
  have hslen : s.length = w1.length + 4 := by
    rw [hs]
    simp only [List.length_append, List.length_map, List.length_cons, List.length_nil]
    omega
  have hsum : 0 < (triCounts s dim).sum := by
    rw [triCounts_sum s dim (by omega), triList_length]
    have h2 : 0 < s.length - 2 := by omega
    exact_mod_cast h2
  have hpos : 0 < normSq (triCounts s dim) :=
    normSq_pos_of_sum_pos _ (triCounts_nonneg s dim) hsum
  rw [if_neg (ne_of_gt hpos), dotTotal_self]

/-- Witness for `embedWordToy_case_insensitive` at the words `"A"` (code 65)
and `"a"` (code 97) with `dim = 4`. -/
theorem embedWordToy_case_insensitive_witness :
    1 ≤ 4 ∧ ([65].map toLowerCode = [97].map toLowerCode) ∧
    (embedWordToy [65] 4 = embedWordToy [97] 4 ∧
      dotTotal (embedWordToy [65] 4).1 (embedWordToy [97] 4).1 =
        (embedWordToy [65] 4).2) :=
  ⟨by decide, by decide, embedWordToy_case_insensitive [65] [97] 4 (by decide) (by decide)⟩

end MuseumOfWords
